import Mathlib

/-!
Verification of the sqlstream video-to-SQL playback engine
(src/sqlstream.py), shallowly embedded in Lean 4.

The SQLite tables are modelled as lists of row structures:
`frame_library (frame_id, line_no, content)` is a list of `LibRow`,
`display (line_no PRIMARY KEY, content)` is a list of `DispRow` whose
`content` column is nullable (`Option String`), since the correlated
UPDATE in `play` can write SQL NULL.

External collaborators (cv2 decode/resize, the BGR→gray conversion,
yt-dlp, the terminal) are passed in as function parameters, with their
documented guarantees taken as hypotheses where needed.
-/

namespace SqlStream

/-- A pixel as produced by the decoder, in BGR channel order
(the python code destructures `for b, g, r in row`). -/
structure Pixel where
  b : Nat
  g : Nat
  r : Nat
deriving DecidableEq, Repr

/-- Row of the `frame_library` table: `(frame_id INTEGER, line_no INTEGER,
content TEXT)`. Ingestion only ever inserts non-null content. -/
structure LibRow where
  frame_id : Nat
  line_no : Nat
  content : String
deriving DecidableEq, Repr

/-- Row of the `display` table: `(line_no INTEGER PRIMARY KEY, content TEXT)`.
`content` is nullable because the correlated subquery in `play` writes NULL
when no archive row matches. -/
structure DispRow where
  line_no : Nat
  content : Option String
deriving DecidableEq, Repr

/-- The two tables owned by one engine connection. -/
structure StoreState where
  frame_library : List LibRow
  display : List DispRow
deriving DecidableEq, Repr

/-! ## Frame encoder (`frame_to_ansi`, lines 44-57) -/

/-- One truecolor background escape plus the space that carries it:
`"\x1b[48;2;{r};{g};{b}m "` built for a single pixel (line 51). -/
def colorEscape (p : Pixel) : String :=
  "\x1b[48;2;" ++ Nat.repr p.r ++ ";" ++ Nat.repr p.g ++ ";" ++ Nat.repr p.b ++ "m "

/-- The ANSI reset code appended at the end of every color-mode line. -/
def resetCode : String := "\x1b[0m"

/-- Python `"".join(strings)`: plain concatenation. -/
def joinStrings : List String → String
  | [] => ""
  | s :: rest => s ++ joinStrings rest

/-- Color-mode encoding of one resampled pixel row (line 51):
per-pixel background escapes, then a single reset code. -/
def colorLine (row : List Pixel) : String :=
  joinStrings (row.map colorEscape) ++ resetCode

/-- The luminance bucket used for glyph lookup: `p // 32` (line 55). -/
def glyphIndex (p : Nat) : Nat := p / 32

/-- Glyph chosen for one luminance value: `self.chars[p // 32]` (line 55).
`none` models python's IndexError when the bucket exceeds the ramp. -/
def glyphChar (chars : List Char) (p : Nat) : Option Char :=
  chars[glyphIndex p]?

/-- Sequential effectful map over a list, failing at the first failure,
as a python comprehension raises at the first bad element. -/
def traverseOpt (f : α → Option β) : List α → Option (List β)
  | [] => some []
  | x :: rest =>
    match f x, traverseOpt f rest with
    | some y, some ys => some (y :: ys)
    | _, _ => none

/-- Glyph-mode encoding of one row of luminance values (lines 54-55). -/
def glyphLine (chars : List Char) (grays : List Nat) : Option String :=
  (traverseOpt (glyphChar chars) grays).map List.asString

/-- `frame_to_ansi` (lines 44-57): resample the frame (cv2.resize, external,
passed as `resize`), then encode every resampled row.  `lum` stands for the
external BGR→gray conversion of line 54.  Returns `none` when the glyph
lookup raises. -/
def frame_to_ansi (resize : List (List Pixel) → List (List Pixel))
    (chars : List Char) (lum : Pixel → Nat) (useColor : Bool)
    (frame : List (List Pixel)) : Option (List String) :=
  let resized := resize frame
  if useColor then
    some (resized.map colorLine)
  else
    traverseOpt (fun row => glyphLine chars (row.map lum)) resized

/-! ## Frame store -/

/-- `_prepare_tables` (lines 30-36): DROP both tables and CREATE them fresh,
discarding whatever the connection held before. -/
def prepareTables (_prior : StoreState) : StoreState :=
  { frame_library := [], display := [] }

/-- The display pre-population of ingest (line 88):
`INSERT INTO display VALUES (?, '')` for each `line_no` in `range(height)`. -/
def displayInit (height : Nat) (st : StoreState) : StoreState :=
  { st with display := st.display ++ (List.range height).map fun i => ⟨i, some ""⟩ }

/-- The spec's `reset(height)` operation.  The code splits it between
`_prepare_tables` (lines 30-36) and the display INSERT inside `ingest`
(line 88); composing the two pieces gives the store-level operation. -/
def reset (prior : StoreState) (height : Nat) : StoreState :=
  displayInit height (prepareTables prior)

/-- The rows `(frame_id, i, line)` appended for one frame's lines,
enumerating `line_no` from `i` (inner loop of lines 81-82). -/
def numberLines (fid i : Nat) : List String → List LibRow
  | [] => []
  | l :: rest => ⟨fid, i, l⟩ :: numberLines fid (i + 1) rest

/-- The full batch built by the ingest loop (lines 75-83): frames are
numbered consecutively from `fid`, lines within a frame from 0. -/
def batchFrom (fid : Nat) : List (List String) → List LibRow
  | [] => []
  | ls :: rest => numberLines fid 0 ls ++ batchFrom (fid + 1) rest

/-- `ingest` (lines 59-92) after the decoder produced `frames`:
recreate the tables, encode every frame, bulk-insert the batch into
`frame_library`, and pre-populate `display` with `height` empty rows.
`none` models an encoder exception aborting before any insert. -/
def ingest (enc : List (List Pixel) → Option (List String)) (height : Nat)
    (frames : List (List (List Pixel))) (prior : StoreState) : Option StoreState :=
  match traverseOpt enc frames with
  | none => none
  | some lss =>
    let st := prepareTables prior
    let st := { st with frame_library := st.frame_library ++ batchFrom 0 lss }
    some (displayInit height st)

/-- The scalar correlated subquery of the UPDATE in `play` (lines 104-107):
first `frame_library` row matching `(fid, line)`, or SQL NULL. -/
def libLookup (lib : List LibRow) (fid line : Nat) : Option String :=
  (lib.find? fun r => r.frame_id == fid && r.line_no == line).map (·.content)

/-- The bulk correlated UPDATE of `play` (lines 103-108): every display row's
content is replaced by the archive's content for the same `line_no` at the
given frame, NULL when absent. -/
def syncFrame (fid : Nat) (st : StoreState) : StoreState :=
  { st with
    display := st.display.map fun d => ⟨d.line_no, libLookup st.frame_library fid d.line_no⟩ }

/-- Insertion step of the ORDER BY model. -/
def insertRow (r : DispRow) : List DispRow → List DispRow
  | [] => [r]
  | x :: xs => if r.line_no ≤ x.line_no then r :: x :: xs else x :: insertRow r xs

/-- Stable sort by `line_no`, modelling `ORDER BY line_no`. -/
def sortByLineNo : List DispRow → List DispRow
  | [] => []
  | x :: xs => insertRow x (sortByLineNo xs)

/-- `SELECT content FROM display ORDER BY line_no` (line 111). -/
def readCurrent (st : StoreState) : List (Option String) :=
  (sortByLineNo st.display).map (·.content)

/-- `SELECT MAX(frame_id) FROM frame_library` (line 96): SQL MAX aggregate,
NULL on an empty table. -/
def maxFid : List LibRow → Option Nat
  | [] => none
  | r :: rest =>
    match maxFid rest with
    | none => some r.frame_id
    | some m => some (max r.frame_id m)

/-- `maxFrameId` of the store. -/
def maxFrameId (st : StoreState) : Option Nat :=
  maxFid st.frame_library

/-! ## Playback synchronizer (`play`, lines 94-121) -/

/-- The ticks of the playback loop: for each frame id, run the correlated
UPDATE then the ordered SELECT, threading the store state. -/
def playTicks (st : StoreState) : List Nat → StoreState × List (Nat × List (Option String))
  | [] => (st, [])
  | f :: rest =>
    let st1 := syncFrame f st
    let out := readCurrent st1
    let (st2, outs) := playTicks st1 rest
    (st2, (f, out) :: outs)

/-- `play` (lines 94-121): fetch `MAX(frame_id)`, then loop
`for f_id in range(total + 1)`.  When the archive is empty the fetched
total is NULL and `total + 1` raises TypeError, modelled as `none`. -/
def play (st : StoreState) : Option (List (Nat × List (Option String))) :=
  match maxFrameId st with
  | none => none
  | some total => some (playTicks st (List.range (total + 1))).2

/-- Exit behaviour of one `main` invocation, abstracted to the pieces the
spec talks about. -/
inductive ExitStatus where
  | success
  | failure (code : Nat)
  | raised
deriving DecidableEq, Repr

/-- The replay branch of `main` (lines 137-146): when the path is missing,
print and `sys.exit(1)` before any database is opened or copied; otherwise
back up the stored database into memory and play it.  An uncaught exception
from `play` surfaces as `raised`. -/
def replayMain (pathExists : Bool) (stored : StoreState) : ExitStatus :=
  if pathExists then
    match play stored with
    | some _ => ExitStatus.success
    | none => ExitStatus.raised
  else
    ExitStatus.failure 1

/-! ## Helper lemmas -/

theorem joinStrings_length (l : List String) :
    (joinStrings l).length = (l.map String.length).sum := by
  induction l with
  | nil => rfl
  | cons s rest ih => simp [joinStrings, String.length_append, ih]

theorem length_lit_colorPrefix : ("\x1b[48;2;" : String).length = 7 := rfl

theorem length_lit_semi : (";" : String).length = 1 := rfl

theorem length_lit_mSpace : ("m " : String).length = 2 := rfl

theorem resetCode_length : resetCode.length = 4 := rfl

theorem colorEscape_length (p : Pixel) :
    (colorEscape p).length
      = 11 + (Nat.repr p.r).length + (Nat.repr p.g).length + (Nat.repr p.b).length := by
  simp only [colorEscape, String.length_append, length_lit_colorPrefix, length_lit_semi,
    length_lit_mSpace]
  omega

theorem traverseOpt_length (f : α → Option β) (l : List α) (l' : List β)
    (h : traverseOpt f l = some l') : l'.length = l.length := by
  induction l generalizing l' with
  | nil =>
    simp only [traverseOpt] at h
    injection h with h
    simp [← h]
  | cons x rest ih =>
    simp only [traverseOpt] at h
    cases hf : f x with
    | none => rw [hf] at h; exact absurd h (by simp)
    | some y =>
      cases ht : traverseOpt f rest with
      | none => rw [hf, ht] at h; exact absurd h (by simp)
      | some ys =>
        rw [hf, ht] at h
        injection h with h
        subst h
        simp [ih ys ht]

theorem traverseOpt_getElem? (f : α → Option β) (l : List α) (l' : List β)
    (h : traverseOpt f l = some l') : ∀ k : Nat, l'[k]? = l[k]?.bind f := by
  induction l generalizing l' with
  | nil =>
    simp only [traverseOpt] at h
    injection h with h
    subst h
    intro k
    simp
  | cons x rest ih =>
    simp only [traverseOpt] at h
    cases hf : f x with
    | none => rw [hf] at h; exact absurd h (by simp)
    | some y =>
      cases ht : traverseOpt f rest with
      | none => rw [hf, ht] at h; exact absurd h (by simp)
      | some ys =>
        rw [hf, ht] at h
        injection h with h
        subst h
        intro k
        cases k with
        | zero => simp [hf]
        | succ k => simp [ih ys ht k]

theorem traverseOpt_mem (f : α → Option β) (l : List α) (l' : List β)
    (h : traverseOpt f l = some l') : ∀ y ∈ l', ∃ x ∈ l, f x = some y := by
  induction l generalizing l' with
  | nil =>
    simp only [traverseOpt] at h
    injection h with h
    subst h
    simp
  | cons x rest ih =>
    simp only [traverseOpt] at h
    cases hf : f x with
    | none => rw [hf] at h; exact absurd h (by simp)
    | some y =>
      cases ht : traverseOpt f rest with
      | none => rw [hf, ht] at h; exact absurd h (by simp)
      | some ys =>
        rw [hf, ht] at h
        injection h with h
        subst h
        intro z hz
        rcases List.mem_cons.1 hz with hz | hz
        · exact ⟨x, List.mem_cons_self x rest, by rw [hf, hz]⟩
        · rcases ih ys ht z hz with ⟨w, hw, hfw⟩
          exact ⟨w, List.mem_cons_of_mem x hw, hfw⟩

theorem numberLines_map_line_no (fid : Nat) (ls : List String) (i : Nat) :
    (numberLines fid i ls).map (·.line_no) = List.range' i ls.length := by
  induction ls generalizing i with
  | nil => rfl
  | cons l rest ih => simp [numberLines, List.range'_succ, ih]

theorem numberLines_frame_id (fid : Nat) (ls : List String) (i : Nat) :
    ∀ r ∈ numberLines fid i ls, r.frame_id = fid := by
  induction ls generalizing i with
  | nil => simp [numberLines]
  | cons l rest ih =>
    intro r hr
    rcases List.mem_cons.1 hr with hr | hr
    · rw [hr]
    · exact ih (i + 1) r hr

theorem numberLines_find? (fid k j : Nat) (ls : List String) (i : Nat) :
    (numberLines fid i ls).find? (fun r => r.frame_id == k && r.line_no == j)
      = if k = fid ∧ i ≤ j then (ls[j - i]?).map (fun c => ⟨fid, j, c⟩) else none := by
  induction ls generalizing i with
  | nil =>
    simp only [numberLines, List.find?_nil]
    split <;> simp
  | cons l rest ih =>
    simp only [numberLines]
    by_cases hk : k = fid
    · by_cases hij : i = j
      · subst hk; subst hij
        rw [List.find?_cons_of_pos _ (by simp)]
        simp
      · rw [List.find?_cons_of_neg _ (by simp; omega)]
        rw [ih (i + 1)]
        by_cases hle : i ≤ j
        · have h1 : i + 1 ≤ j := by omega
          have h2 : j - i = (j - (i + 1)) + 1 := by omega
          simp only [hk, h1, hle, and_self, if_true, true_and, if_pos]
          rw [h2, List.getElem?_cons_succ]
        · have h1 : ¬ (i + 1 ≤ j) := by omega
          simp [hk, h1, hle]
    · rw [List.find?_cons_of_neg _ (by simp; intro h; omega)]
      rw [ih (i + 1)]
      simp [hk]

theorem numberLines_filter (fid k : Nat) (ls : List String) (i : Nat) :
    (numberLines fid i ls).filter (fun r => r.frame_id == k)
      = if k = fid then numberLines fid i ls else [] := by
  induction ls generalizing i with
  | nil =>
    simp only [numberLines, List.filter_nil]
    split <;> rfl
  | cons l rest ih =>
    simp only [numberLines, List.filter_cons]
    by_cases hk : k = fid
    · subst hk
      simp [ih (i + 1)]
    · simp only [ih (i + 1), if_neg hk]
      have : ((⟨fid, i, l⟩ : LibRow).frame_id == k) = false := by
        simp
        omega
      simp [this]

theorem batchFrom_frame_id_ge (fid : Nat) (lss : List (List String)) :
    ∀ r ∈ batchFrom fid lss, fid ≤ r.frame_id := by
  induction lss generalizing fid with
  | nil => simp [batchFrom]
  | cons ls rest ih =>
    intro r hr
    rcases List.mem_append.1 hr with hr | hr
    · rw [numberLines_frame_id fid ls 0 r hr]
    · have := ih (fid + 1) r hr
      omega

theorem batchFrom_find? (fid k j : Nat) (lss : List (List String)) :
    (batchFrom fid lss).find? (fun r => r.frame_id == k && r.line_no == j)
      = if fid ≤ k then
          (lss[k - fid]?).bind (fun ls => (ls[j]?).map fun c => ⟨k, j, c⟩)
        else none := by
  induction lss generalizing fid with
  | nil =>
    simp only [batchFrom, List.find?_nil]
    split <;> simp
  | cons ls rest ih =>
    simp only [batchFrom, List.find?_append, numberLines_find?]
    by_cases hk : k = fid
    · subst hk
      have hrest : (batchFrom (k + 1) rest).find?
          (fun r => r.frame_id == k && r.line_no == j) = none := by
        rw [List.find?_eq_none]
        intro r hr
        have := batchFrom_frame_id_ge (k + 1) rest r hr
        simp
        omega
      rw [if_pos (⟨rfl, Nat.zero_le j⟩ : k = k ∧ 0 ≤ j), hrest, Nat.sub_zero]
      rw [if_pos (Nat.le_refl k), Nat.sub_self, List.getElem?_cons_zero,
        Option.some_bind]
      cases hls : ls[j]? <;> simp
    · have hblock : ¬ (k = fid ∧ 0 ≤ j) := by omega
      rw [if_neg hblock]
      simp only [Option.none_or]
      rw [ih (fid + 1)]
      by_cases hle : fid ≤ k
      · have h1 : fid + 1 ≤ k := by omega
        have h2 : k - fid = (k - (fid + 1)) + 1 := by omega
        rw [if_pos h1, if_pos hle, h2, List.getElem?_cons_succ]
      · have h1 : ¬ (fid + 1 ≤ k) := by omega
        rw [if_neg h1, if_neg hle]

theorem batchFrom_filter (fid k height : Nat) (lss : List (List String))
    (hH : ∀ ls ∈ lss, ls.length = height) :
    ((batchFrom fid lss).filter fun r => r.frame_id == k).map (·.line_no)
      = if fid ≤ k ∧ k < fid + lss.length then List.range height else [] := by
  induction lss generalizing fid with
  | nil =>
    simp only [batchFrom, List.filter_nil, List.map_nil, List.length_nil]
    split
    · omega
    · rfl
  | cons ls rest ih =>
    simp only [batchFrom, List.filter_append, List.map_append, numberLines_filter]
    by_cases hk : k = fid
    · subst hk
      have hrest : (batchFrom (k + 1) rest).filter (fun r => r.frame_id == k) = [] := by
        rw [List.filter_eq_nil_iff]
        intro r hr
        have := batchFrom_frame_id_ge (k + 1) rest r hr
        simp
        omega
      rw [if_pos rfl, hrest]
      simp only [List.map_nil, List.append_nil]
      rw [numberLines_map_line_no, hH ls (List.mem_cons_self ls rest),
        ← List.range_eq_range']
      rw [if_pos (by refine ⟨Nat.le_refl k, ?_⟩; simp only [List.length_cons]; omega)]
    · simp only [if_neg hk, List.map_nil, List.nil_append]
      rw [ih (fid + 1) (fun l hl => hH l (List.mem_cons_of_mem ls hl))]
      by_cases hle : fid ≤ k
      · have : (fid ≤ k ∧ k < fid + (ls :: rest).length)
            ↔ (fid + 1 ≤ k ∧ k < fid + 1 + rest.length) := by
          simp only [List.length_cons]
          omega
        rw [if_congr this rfl rfl]
      · have h1 : ¬ (fid + 1 ≤ k ∧ k < fid + 1 + rest.length) := by omega
        have h2 : ¬ (fid ≤ k ∧ k < fid + (ls :: rest).length) := by
          simp only [List.length_cons]
          omega
        rw [if_neg h1, if_neg h2]

theorem sortByLineNo_eq_self (l : List DispRow)
    (h : l.Pairwise fun a b => a.line_no ≤ b.line_no) : sortByLineNo l = l := by
  induction l with
  | nil => rfl
  | cons x xs ih =>
    rcases List.pairwise_cons.1 h with ⟨hx, hxs⟩
    simp only [sortByLineNo, ih hxs]
    cases xs with
    | nil => rfl
    | cons y ys =>
      simp [insertRow, hx y (List.mem_cons_self y ys)]

theorem range_map_getElem? (ls : List String) (h : Nat) (hl : ls.length = h) :
    (List.range h).map (fun i => ls[i]?) = ls.map some := by
  apply List.ext_getElem?
  intro j
  rw [List.getElem?_map, List.getElem?_map]
  by_cases hj : j < h
  · rw [List.getElem?_range hj, List.getElem?_eq_getElem (by omega : j < ls.length)]
    simp [List.getElem?_eq_getElem (show j < ls.length by omega)]
  · rw [List.getElem?_eq_none (by simpa using hj),
      List.getElem?_eq_none (by omega : ls.length ≤ j)]
    rfl

/-! ## Claims -/

/-- C7: `syncFrame` is idempotent: the correlated UPDATE writes content that
depends only on the (unchanged) `line_no` keys and the (unchanged) archive,
so a second `syncFrame k` leaves the whole store state, and hence the
`readCurrent` output, unchanged. -/
theorem syncFrame_idempotent (k : Nat) (st : StoreState) :
    syncFrame k (syncFrame k st) = syncFrame k st ∧
      readCurrent (syncFrame k (syncFrame k st)) = readCurrent (syncFrame k st) := by
  have h : syncFrame k (syncFrame k st) = syncFrame k st := by
    simp [syncFrame, List.map_map, Function.comp]
  exact ⟨h, by rw [h]⟩

/-- C4: `reset` (the composition of `_prepare_tables` with the display
pre-population) empties the archive, discards any prior contents, and leaves
the mirror with exactly `height` rows keyed `line_no` 0..height-1, all
initialized to the empty string. -/
theorem reset_initializes_mirror (prior prior2 : StoreState) (height : Nat) :
    (reset prior height).frame_library = [] ∧
      (reset prior height).display.map (·.line_no) = List.range height ∧
      (reset prior height).display.map (·.content) = List.replicate height (some "") ∧
      (reset prior height).display.length = height ∧
      reset prior height = reset prior2 height := by
  refine ⟨rfl, ?_, ?_, ?_, rfl⟩
  · simp only [reset, displayInit, prepareTables, List.nil_append, List.map_map]
    rw [show ((fun x : DispRow => x.line_no) ∘ fun i => (⟨i, some ""⟩ : DispRow)) = id from rfl,
      List.map_id]
  · simp only [reset, displayInit, prepareTables, List.nil_append, List.map_map]
    rw [show ((fun x : DispRow => x.content) ∘ fun i => (⟨i, some ""⟩ : DispRow))
        = Function.const Nat (some "") from rfl]
    simp [List.map_const]
  · simp [reset, displayInit, prepareTables]

/-- C5 counterexample: in color mode there are no fixed constants
`colorEscapeLength`, `resetCodeLength` with line length
`W * (colorEscapeLength + 1) + resetCodeLength` for every row: the escape
for pixel (0,0,0) is shorter than the one for (255,255,255), so two
one-pixel rows already have different lengths. -/
theorem color_line_length_not_fixed :
    ¬ ∃ eLen rLen : Nat, ∀ row : List Pixel,
        (colorLine row).length = row.length * (eLen + 1) + rLen := by
  rintro ⟨eLen, rLen, h⟩
  have h0 := h [⟨0, 0, 0⟩]
  have h1 := h [⟨255, 255, 255⟩]
  have e0 : (colorLine [⟨0, 0, 0⟩]).length = 18 := by decide
  have e1 : (colorLine [⟨255, 255, 255⟩]).length = 24 := by decide
  rw [e0] at h0
  rw [e1] at h1
  simp at h0 h1
  omega

/-- C5 amended: a color-mode line's length is the reset code's length plus,
for each pixel, the length of that pixel's escape-plus-space, which is
`11 + digits(r) + digits(g) + digits(b)` and so varies with the components'
decimal widths rather than being a per-pixel constant. -/
theorem color_line_length_sum (row : List Pixel) :
    (colorLine row).length
        = (row.map fun p => (colorEscape p).length).sum + resetCode.length ∧
      ∀ p : Pixel, (colorEscape p).length
        = 11 + (Nat.repr p.r).length + (Nat.repr p.g).length + (Nat.repr p.b).length := by
  refine ⟨?_, fun p => colorEscape_length p⟩
  simp only [colorLine, String.length_append, joinStrings_length, List.map_map]
  rfl

/-- C10: starting playback on an empty archive does not render zero frames
and finish cleanly: `MAX(frame_id)` fetches the NULL sentinel and
`range(total + 1)` on it raises, so `play` errors out. -/
theorem play_empty_archive_errors (st : StoreState)
    (h : st.frame_library = []) :
    maxFrameId st = none ∧ play st = none := by
  have hm : maxFrameId st = none := by simp [maxFrameId, h, maxFid]
  exact ⟨hm, by simp [play, hm]⟩

/-- C10 witness: a store with empty archive but initialized mirror. -/
theorem play_empty_archive_errors_witness :
    maxFrameId ⟨[], [⟨0, some ""⟩]⟩ = none ∧ play ⟨[], [⟨0, some ""⟩]⟩ = none :=
  play_empty_archive_errors ⟨[], [⟨0, some ""⟩]⟩ rfl

/-- C3: under the documented configuration precondition that the density
ramp has exactly 8 characters (one per luminance bucket), luminance 0 maps
to the first (darkest) ramp character, 255 to the last (lightest), the
bucket index is monotone in the luminance, the mapping is `chars[p / 32]`,
and every luminance up to 255 hits a defined ramp character. -/
theorem glyph_ramp_mapping (chars : List Char) (h8 : chars.length = 8) :
    glyphChar chars 0 = chars[0]? ∧
      glyphChar chars 255 = chars[chars.length - 1]? ∧
      (∀ p q : Nat, p ≤ q → glyphIndex p ≤ glyphIndex q) ∧
      (∀ p : Nat, glyphIndex p = p / 32 ∧ glyphChar chars p = chars[p / 32]?) ∧
      (∀ p : Nat, p ≤ 255 → (glyphChar chars p).isSome) := by
  refine ⟨rfl, ?_, fun p q hpq => Nat.div_le_div_right hpq, fun p => ⟨rfl, rfl⟩, ?_⟩
  · rw [h8]
    exact rfl
  · intro p hp
    have hidx : glyphIndex p < chars.length := by
      have : p / 32 ≤ 255 / 32 := Nat.div_le_div_right hp
      simp only [glyphIndex]
      omega
    simp [glyphChar, List.getElem?_eq_getElem hidx]

/-- C3 witness: an 8-character ramp, exercising the first and last buckets. -/
theorem glyph_ramp_mapping_witness :
    glyphChar ("@%#*+=-:".toList) 0 = ("@%#*+=-:".toList)[0]? ∧
      glyphChar ("@%#*+=-:".toList) 255
        = ("@%#*+=-:".toList)[("@%#*+=-:".toList).length - 1]? ∧
      (glyphChar ("@%#*+=-:".toList) 255).isSome :=
  ⟨(glyph_ramp_mapping "@%#*+=-:".toList (by decide)).1,
   (glyph_ramp_mapping "@%#*+=-:".toList (by decide)).2.1,
   (glyph_ramp_mapping "@%#*+=-:".toList (by decide)).2.2.2.2 255 (by decide)⟩

theorem playTicks_map_fst (ids : List Nat) (st : StoreState) :
    ((playTicks st ids).2).map Prod.fst = ids := by
  induction ids generalizing st with
  | nil => rfl
  | cons f rest ih => simp [playTicks, ih]

theorem maxFid_eq_none_iff (l : List LibRow) : maxFid l = none ↔ l = [] := by
  cases l with
  | nil => simp [maxFid]
  | cons r rest =>
    simp only [maxFid]
    constructor
    · intro h
      split at h <;> simp_all
    · intro h
      exact absurd h (List.cons_ne_nil r rest)

theorem maxFid_is_ub (l : List LibRow) (m : Nat) (hm : maxFid l = some m) :
    ∀ r ∈ l, r.frame_id ≤ m := by
  induction l generalizing m with
  | nil => simp
  | cons r rest ih =>
    intro x hx
    simp only [maxFid] at hm
    rcases List.mem_cons.1 hx with h | h
    · subst h
      split at hm <;> (injection hm with hm; omega)
    · split at hm
      case _ hnone =>
        rw [maxFid_eq_none_iff] at hnone
        subst hnone
        simp at h
      case _ m' hsome =>
        injection hm with hm
        have := ih m' hsome x h
        omega

theorem maxFid_mem (l : List LibRow) (m : Nat) (hm : maxFid l = some m) :
    ∃ r ∈ l, r.frame_id = m := by
  induction l generalizing m with
  | nil => simp [maxFid] at hm
  | cons r rest ih =>
    simp only [maxFid] at hm
    split at hm
    · injection hm with hm
      exact ⟨r, List.mem_cons_self r rest, hm⟩
    case _ m' hsome =>
      injection hm with hm
      rcases Nat.le_total r.frame_id m' with h | h
      · rcases ih m' hsome with ⟨x, hx, hxm⟩
        exact ⟨x, List.mem_cons_of_mem r hx, by omega⟩
      · exact ⟨r, List.mem_cons_self r rest, by omega⟩

/-- C6: `maxFrameId` fetches the greatest `frame_id` present (the NULL
sentinel exactly when the archive is empty), and playback ticks through
frame ids 0..maxFrameId inclusive, strictly increasing with no repeats,
terminating right after the maximal frame id. -/
theorem maxFrameId_play_bounds (st : StoreState) :
    (maxFrameId st = none ↔ st.frame_library = []) ∧
      ∀ m, maxFrameId st = some m →
        (∀ r ∈ st.frame_library, r.frame_id ≤ m) ∧
          (∃ r ∈ st.frame_library, r.frame_id = m) ∧
          ∀ ticks, play st = some ticks →
            ticks.map Prod.fst = List.range (m + 1) ∧
              (ticks.map Prod.fst).Pairwise (· < ·) ∧
              (ticks.map Prod.fst).getLast? = some m := by
  refine ⟨maxFid_eq_none_iff st.frame_library, fun m hm => ?_⟩
  refine ⟨maxFid_is_ub st.frame_library m hm, maxFid_mem st.frame_library m hm, ?_⟩
  intro ticks hticks
  simp only [play, maxFrameId] at hticks
  rw [show maxFid st.frame_library = some m from hm] at hticks
  have hts : ticks = (playTicks st (List.range (m + 1))).2 := by
    injection hticks.symm
  have hfst : ticks.map Prod.fst = List.range (m + 1) := by
    rw [hts, playTicks_map_fst]
  refine ⟨hfst, ?_, ?_⟩
  · rw [hfst]
    exact List.pairwise_lt_range (m + 1)
  · rw [hfst, List.range_succ m, List.getLast?_concat]

/-- C6 witness: a one-frame, one-line archive. -/
theorem maxFrameId_play_bounds_witness :
    maxFrameId ⟨[⟨0, 0, "a"⟩], [⟨0, some ""⟩]⟩ = some 0 ∧
      List.map Prod.fst [((0 : Nat), ([some "a"] : List (Option String)))]
        = List.range (0 + 1) := by
  have h := ((maxFrameId_play_bounds ⟨[⟨0, 0, "a"⟩], [⟨0, some ""⟩]⟩).2 0 rfl).2.2
    [((0 : Nat), ([some "a"] : List (Option String)))] rfl
  exact ⟨rfl, h.1⟩

/-- C9: syncing a frame id absent from the archive blanks the whole mirror
to SQL NULL (the correlated subquery finds no row) rather than keeping the
previously synchronized content; the mirror's row count and its `line_no`
keys are untouched. -/
theorem sync_missing_frame_nulls (k : Nat) (st : StoreState)
    (h : ∀ r ∈ st.frame_library, r.frame_id ≠ k) :
    (syncFrame k st).display.map (·.content)
        = List.replicate st.display.length none ∧
      (syncFrame k st).display.map (·.line_no) = st.display.map (·.line_no) ∧
      (syncFrame k st).display.length = st.display.length := by
  have hl : ∀ line, libLookup st.frame_library k line = none := by
    intro line
    have hfind : (st.frame_library.find? fun r => r.frame_id == k && r.line_no == line)
        = none := by
      rw [List.find?_eq_none]
      intro r hr
      simp [h r hr]
    simp [libLookup, hfind]
  refine ⟨?_, ?_, by simp [syncFrame]⟩
  · simp only [syncFrame, List.map_map]
    rw [show ((fun x : DispRow => x.content)
          ∘ fun d : DispRow => (⟨d.line_no, libLookup st.frame_library k d.line_no⟩ : DispRow))
        = fun d : DispRow => (none : Option String) from funext fun d => hl d.line_no]
    simp [List.map_const']
  · simp only [syncFrame, List.map_map]
    rfl

/-- C9 witness: a two-line mirror synced to an absent frame id. -/
theorem sync_missing_frame_nulls_witness :
    (syncFrame 5 ⟨[⟨0, 0, "a"⟩], [⟨0, some "a"⟩, ⟨1, some "b"⟩]⟩).display.map (·.content)
        = List.replicate 2 none ∧
      (syncFrame 5 ⟨[⟨0, 0, "a"⟩], [⟨0, some "a"⟩, ⟨1, some "b"⟩]⟩).display.map (·.line_no)
        = [0, 1] := by
  have h := sync_missing_frame_nulls 5 ⟨[⟨0, 0, "a"⟩], [⟨0, some "a"⟩, ⟨1, some "b"⟩]⟩
    (by decide)
  exact ⟨h.1, by rw [h.2.1]; rfl⟩

theorem ingest_eq (enc : List (List Pixel) → Option (List String)) (height : Nat)
    (frames : List (List (List Pixel))) (prior st : StoreState)
    (hing : ingest enc height frames prior = some st) :
    ∃ lss, traverseOpt enc frames = some lss ∧
      st.frame_library = batchFrom 0 lss ∧
      st.display = (List.range height).map fun i => ⟨i, some ""⟩ := by
  unfold ingest at hing
  cases htr : traverseOpt enc frames with
  | none => rw [htr] at hing; exact absurd hing (by simp)
  | some lss =>
    rw [htr] at hing
    have hst := Option.some_inj.1 hing
    refine ⟨lss, rfl, ?_, ?_⟩
    · rw [← hst]
      simp [displayInit, prepareTables]
    · rw [← hst]
      simp [displayInit, prepareTables]

/-- C1: after a completed ingestion, for a frame id `k` whose full set of
`height` lines is archived, the correlated UPDATE of `syncFrame k` followed
by the ordered SELECT of `readCurrent` returns exactly the lines the encoder
produced for frame `k`, in ascending `line_no` order. -/
theorem sync_read_returns_encoded_lines
    (enc : List (List Pixel) → Option (List String)) (height : Nat)
    (frames : List (List (List Pixel))) (prior st : StoreState)
    (k : Nat) (fk : List (List Pixel)) (ls : List String)
    (hing : ingest enc height frames prior = some st)
    (hfk : frames[k]? = some fk)
    (henc : enc fk = some ls)
    (hlen : ls.length = height) :
    readCurrent (syncFrame k st) = ls.map some := by
  obtain ⟨lss, htr, hlib, hdisp⟩ := ingest_eq enc height frames prior st hing
  have hlss : lss[k]? = some ls := by
    rw [traverseOpt_getElem? enc frames lss htr k, hfk]
    exact henc
  have hsync : (syncFrame k st).display
      = (List.range height).map fun i => ⟨i, libLookup st.frame_library k i⟩ := by
    simp only [syncFrame, hdisp, List.map_map]
    rfl
  have hlook : ∀ i, libLookup st.frame_library k i = ls[i]? := by
    intro i
    rw [hlib]
    unfold libLookup
    rw [batchFrom_find? 0 k i lss, if_pos (Nat.zero_le k), Nat.sub_zero, hlss]
    simp only [Option.some_bind, Option.map_map]
    cases ls[i]? <;> rfl
  have hpair : ((List.range height).map
      fun i => (⟨i, libLookup st.frame_library k i⟩ : DispRow)).Pairwise
        fun a b => a.line_no ≤ b.line_no := by
    rw [List.pairwise_map]
    exact (List.pairwise_lt_range height).imp Nat.le_of_lt
  rw [readCurrent, hsync, sortByLineNo_eq_self _ hpair, List.map_map]
  rw [show ((fun x : DispRow => x.content)
        ∘ fun i => (⟨i, libLookup st.frame_library k i⟩ : DispRow))
      = fun i => ls[i]? from funext fun i => hlook i]
  exact range_map_getElem? ls height hlen

/-- C1 witness: a one-frame session of two lines, synced and read back. -/
theorem sync_read_returns_encoded_lines_witness :
    readCurrent (syncFrame 0 ⟨[⟨0, 0, "x"⟩, ⟨0, 1, "y"⟩], [⟨0, some ""⟩, ⟨1, some ""⟩]⟩)
      = (["x", "y"]).map some :=
  sync_read_returns_encoded_lines (fun _ => some ["x", "y"]) 2 [[]] ⟨[], []⟩
    ⟨[⟨0, 0, "x"⟩, ⟨0, 1, "y"⟩], [⟨0, some ""⟩, ⟨1, some ""⟩]⟩ 0 [] ["x", "y"]
    rfl rfl rfl rfl

/-- C2: after a completed ingestion whose encoder emits `height` lines per
frame, every archived frame id has `line_no` values exactly 0..height-1 in
order (so no gaps and no duplicates), and the frame ids present are exactly
the consecutive ids 0..frames-1 (present at all only when `height > 0`). -/
theorem ingest_lineNo_complete
    (enc : List (List Pixel) → Option (List String)) (height : Nat)
    (frames : List (List (List Pixel))) (prior st : StoreState)
    (hing : ingest enc height frames prior = some st)
    (hlen : ∀ f l, f ∈ frames → enc f = some l → l.length = height) :
    (∀ k, ((st.frame_library.filter fun r => r.frame_id == k).map (·.line_no))
        = if k < frames.length then List.range height else []) ∧
      ∀ k, (∃ r ∈ st.frame_library, r.frame_id = k) ↔ (k < frames.length ∧ 0 < height) := by
  obtain ⟨lss, htr, hlib, hdisp⟩ := ingest_eq enc height frames prior st hing
  have hlsslen : lss.length = frames.length := traverseOpt_length enc frames lss htr
  have hH : ∀ ls ∈ lss, ls.length = height := by
    intro ls hls
    rcases traverseOpt_mem enc frames lss htr ls hls with ⟨f, hf, hfe⟩
    exact hlen f ls hf hfe
  have hfilter : ∀ k, ((st.frame_library.filter fun r => r.frame_id == k).map (·.line_no))
      = if k < frames.length then List.range height else [] := by
    intro k
    rw [hlib, batchFrom_filter 0 k height lss hH]
    have hiff : (0 ≤ k ∧ k < 0 + lss.length) ↔ k < frames.length := by omega
    rw [if_congr hiff rfl rfl]
  refine ⟨hfilter, fun k => ?_⟩
  constructor
  · rintro ⟨r, hr, hrk⟩
    have hmem : r ∈ st.frame_library.filter fun r => r.frame_id == k :=
      List.mem_filter.2 ⟨hr, by simp [hrk]⟩
    have hne : (st.frame_library.filter fun r => r.frame_id == k).map (·.line_no)
        ≠ [] := by
      intro hnil
      rw [List.map_eq_nil_iff] at hnil
      rw [hnil] at hmem
      exact absurd hmem (List.not_mem_nil r)
    rw [hfilter k] at hne
    by_cases hk : k < frames.length
    · refine ⟨hk, ?_⟩
      rw [if_pos hk] at hne
      rcases Nat.eq_zero_or_pos height with h0 | h0
      · rw [h0] at hne
        exact absurd rfl hne
      · exact h0
    · rw [if_neg hk] at hne
      exact absurd rfl hne
  · rintro ⟨hk, hh⟩
    have hne : (st.frame_library.filter fun r => r.frame_id == k).map (·.line_no)
        ≠ [] := by
      rw [hfilter k, if_pos hk]
      rw [Ne, List.range_eq_nil]
      omega
    have hfne : st.frame_library.filter (fun r => r.frame_id == k) ≠ [] := by
      intro hnil
      rw [hnil] at hne
      exact hne rfl
    rcases List.exists_mem_of_ne_nil _ hfne with ⟨r, hr⟩
    rcases List.mem_filter.1 hr with ⟨hrl, hrk⟩
    exact ⟨r, hrl, by simpa using hrk⟩

/-- C2 witness: one ingested frame of two lines has line numbers 0 and 1. -/
theorem ingest_lineNo_complete_witness :
    ((([⟨0, 0, "a"⟩, ⟨0, 1, "b"⟩] : List LibRow).filter
        fun r => r.frame_id == 0).map (·.line_no)) = List.range 2 := by
  have h := (ingest_lineNo_complete (fun _ => some ["a", "b"]) 2 [[]] ⟨[], []⟩
      ⟨[⟨0, 0, "a"⟩, ⟨0, 1, "b"⟩], [⟨0, some ""⟩, ⟨1, some ""⟩]⟩ rfl
      (fun f l _ hl => by
        have := Option.some_inj.1 hl
        rw [← this]
        rfl)).1 0
  rw [if_pos (by decide)] at h
  exact h

/-- C8: in replay mode a missing store path yields the distinct failure
status 1 regardless of what the store holds (nothing is read, no partial
state is touched), while a run whose playback completes normally exits with
the success status, and the two statuses differ. -/
theorem replay_exit_status :
    (∀ stored : StoreState, replayMain false stored = ExitStatus.failure 1) ∧
      (∀ (stored : StoreState) out, play stored = some out →
        replayMain true stored = ExitStatus.success) ∧
      ExitStatus.failure 1 ≠ ExitStatus.success := by
  refine ⟨fun _ => rfl, fun stored out h => ?_, by decide⟩
  simp [replayMain, h]

/-- C8 witness: a missing path fails with status 1; a playable store
succeeds. -/
theorem replay_exit_status_witness :
    replayMain false ⟨[⟨0, 0, "b"⟩], [⟨0, some ""⟩]⟩ = ExitStatus.failure 1 ∧
      replayMain true ⟨[⟨0, 0, "b"⟩], [⟨0, some ""⟩]⟩ = ExitStatus.success :=
  ⟨replay_exit_status.1 ⟨[⟨0, 0, "b"⟩], [⟨0, some ""⟩]⟩,
   replay_exit_status.2.1 ⟨[⟨0, 0, "b"⟩], [⟨0, some ""⟩]⟩
     [((0 : Nat), ([some "b"] : List (Option String)))] rfl⟩

end SqlStream
